import Mathlib

/-!
# Verification of the lab2 linear-system solver library

Shallow embedding of `src/lab2/algorithm.py` over exact rationals.

Modelling conventions:
* numpy 1-D arrays are `List ℚ`, 2-D arrays are `List (List ℚ)`;
  `A[i, j]` is `mEnt A i j`, `v[i]` is `vEnt v i`, `len(A)` is `A.length`.
* The external dense linear-algebra facility (`numpy.linalg`) that supplies
  eigenvalues and matrix inverses is modelled as an oracle record `LinAlg`;
  the spec explicitly treats it as an external collaborator, "assumed to be
  provided by a dense numeric library, not reimplemented by the core".
  Eigenvalues of the matrices arising here are modelled as rationals.
* Division is the total division of `ℚ` (`q / 0 = 0`); places where the
  Python code divides by zero (producing `inf`/`nan` floats) are tracked
  separately by explicit zero-divisor detector functions.
* The unbounded `while True` loops are modelled with an explicit fuel
  argument; exhausted fuel is the `outOfFuel` result, which stands for a
  run that has not terminated within the allotted number of sweeps.
* `‖v‖₂ ≤ eps` is modelled as `normSq v ≤ eps ^ 2`, which is equivalent
  for the nonnegative 2-norm.
-/

namespace Lab2

/-- Process-wide tolerance, `eps = 1e-6` in the source. -/
def eps : ℚ := 1 / 1000000

/-- Dense vector: numpy 1-D array of reals, modelled over `ℚ`. -/
abbrev Vec := List ℚ

/-- Dense matrix: numpy 2-D array of reals, modelled row-major over `ℚ`. -/
abbrev Mat := List (List ℚ)

/-- Entry read `v[i]` of a vector. -/
def vEnt (v : Vec) (i : ℕ) : ℚ := v.getD i 0

/-- Entry read `A[i, j]` of a matrix. -/
def mEnt (A : Mat) (i j : ℕ) : ℚ := (A.getD i []).getD j 0

/-- Squared Euclidean norm of a vector (`linalg.norm(v) ^ 2`). -/
def normSq (v : Vec) : ℚ := (v.map (fun a => a ^ 2)).sum

/-- Stopping test `linalg.norm(x - y) <= eps` of the iterative solvers,
expressed with the squared norm (equivalent since both sides are ≥ 0). -/
def stopCond (x y : Vec) : Bool := decide (normSq (List.zipWith (· - ·) x y) ≤ eps ^ 2)

/-- Result of a solver call: `sentinel` is the `(NaN, NaN)` failure pair
returned by a failed pre-flight check, `ok x cnt` is the `(x, cnt)` pair,
`outOfFuel` models a run that has not stopped within the fuel budget. -/
inductive SolveResult where
  | sentinel : SolveResult
  | ok : Vec → ℕ → SolveResult
  | outOfFuel : SolveResult
deriving DecidableEq, Repr

/-- The external `numpy.linalg` facility: eigenvalue computation and matrix
inversion, used by the convergence analyzer and the SPD check. -/
structure LinAlg where
  eigvals : Mat → List ℚ
  inv : Mat → Mat

/-- `linalg.norm(eigenvalues, ord=inf)`: the largest absolute value in the
list, i.e. the spectral radius of the matrix whose eigenvalues these are. -/
def spectralRadius (l : List ℚ) : ℚ := l.foldl (fun m x => max m |x|) 0

/-- `check_spectral_radius(B)`: compute the eigenvalues of `B`, take the
infinity-norm over them, and accept unless
`spectral_radius - 1 >= eps or 1 - spectral_radius <= eps`. -/
def check_spectral_radius (la : LinAlg) (B : Mat) : Bool :=
  let ρ := spectralRadius (la.eigvals B)
  if ρ - 1 ≥ eps ∨ 1 - ρ ≤ eps then false else true

/-- `eye(n)` then `D[i,i] = A[i,i]`: the diagonal part of `A`. -/
def diagD (A : Mat) : Mat :=
  (List.range A.length).map fun i =>
    (List.range A.length).map fun j => if i = j then mEnt A i i else 0

/-- `tril(A, -1)`: strictly lower triangular part of `A`. -/
def trilStrict (A : Mat) : Mat :=
  (List.range A.length).map fun i =>
    (List.range A.length).map fun j => if j < i then mEnt A i j else 0

/-- `triu(A, 1)`: strictly upper triangular part of `A`. -/
def triuStrict (A : Mat) : Mat :=
  (List.range A.length).map fun i =>
    (List.range A.length).map fun j => if i < j then mEnt A i j else 0

/-- Elementwise sum of two square matrices of the same shape. -/
def matAdd (A B : Mat) : Mat :=
  (List.range A.length).map fun i =>
    (List.range A.length).map fun j => mEnt A i j + mEnt B i j

/-- Elementwise difference of two square matrices of the same shape. -/
def matSub (A B : Mat) : Mat :=
  (List.range A.length).map fun i =>
    (List.range A.length).map fun j => mEnt A i j - mEnt B i j

/-- Scalar multiple `dot(w, L)` / `w * L` of a matrix. -/
def matSMul (w : ℚ) (A : Mat) : Mat := A.map fun row => row.map (fun a => w * a)

/-- Elementwise negation `-B` of a matrix. -/
def matNeg (A : Mat) : Mat := A.map fun row => row.map (fun a => -a)

/-- Matrix product `dot(A, B)` for `n×n` matrices (`n = A.length`). -/
def matMul (A B : Mat) : Mat :=
  (List.range A.length).map fun i =>
    (List.range A.length).map fun j =>
      ∑ t ∈ Finset.range A.length, mEnt A i t * mEnt B t j

/-- `check_jacobi_convergency(A)`: build `B = -inv(D) · (L + U)` from the
splitting of `A` and test its spectral radius. -/
def check_jacobi_convergency (la : LinAlg) (A : Mat) : Bool :=
  let D := diagD A
  let L := trilStrict A
  let U := triuStrict A
  let B := matNeg (matMul (la.inv D) (matAdd L U))
  check_spectral_radius la B

/-- `check_gauss_seidel_convergency(A)`: build `B = -inv(D + L) · U` and
test its spectral radius. -/
def check_gauss_seidel_convergency (la : LinAlg) (A : Mat) : Bool :=
  let D := diagD A
  let L := trilStrict A
  let U := triuStrict A
  let B := matNeg (matMul (la.inv (matAdd D L)) U)
  check_spectral_radius la B

/-- `check_successive_over_relaxation_convergency(A, w)`: build
`B = inv(D + w·L) · ((1 - w)·D - w·U)` and test its spectral radius. -/
def check_successive_over_relaxation_convergency (la : LinAlg) (A : Mat) (w : ℚ) : Bool :=
  let D := diagD A
  let L := trilStrict A
  let U := triuStrict A
  let B := matMul (la.inv (matAdd D (matSMul w L))) (matSub (matSMul (1 - w) D) (matSMul w U))
  check_spectral_radius la B

/-!
## Iterative sweeps

Each sweep is the body of one `while True` iteration: a loop over `i` that
writes `x[i]` in place.  The in-place writes are the `List.set` calls of a
left fold over `List.range n`.  For Jacobi the off-diagonal sum reads the
saved previous iterate `y` (the fold's initial value, held fixed); for
Gauss-Seidel and SOR it reads the accumulator, i.e. the partially updated
`x`, exactly as the Python loop reads the array it is mutating.
-/

/-- One Jacobi sweep: `x[i] = (b[i] - Σ_{j≠i} A[i,j]·y[j]) / A[i,i]`,
where `y` is the full previous iterate (the parameter `x`). -/
def sweepJacobi (A : Mat) (b : Vec) (x : Vec) : Vec :=
  (List.range A.length).foldl
    (fun acc i =>
      acc.set i ((vEnt b i -
        ∑ j ∈ Finset.range A.length, if j = i then 0 else mEnt A i j * vEnt x j) / mEnt A i i))
    x

/-- One Gauss-Seidel sweep: same formula but the off-diagonal sum reads the
vector being updated in place (the fold accumulator). -/
def sweepGaussSeidel (A : Mat) (b : Vec) (x : Vec) : Vec :=
  (List.range A.length).foldl
    (fun acc i =>
      acc.set i ((vEnt b i -
        ∑ j ∈ Finset.range A.length, if j = i then 0 else mEnt A i j * vEnt acc j) / mEnt A i i))
    x

/-- One SOR sweep: `x[i] = (1-w)·x[i] + w·(b[i] - Σ_{j≠i} A[i,j]·x[j]) / A[i,i]`,
reading the in-place values like Gauss-Seidel. -/
def sweepSOR (A : Mat) (b : Vec) (w : ℚ) (x : Vec) : Vec :=
  (List.range A.length).foldl
    (fun acc i =>
      acc.set i ((1 - w) * vEnt acc i +
        w * (vEnt b i -
          ∑ j ∈ Finset.range A.length, if j = i then 0 else mEnt A i j * vEnt acc j) / mEnt A i i))
    x

/-- The `while True` loop shared by Jacobi / Gauss-Seidel / SOR:
save `y = x`, run one sweep, `cnt += 1`, stop when `‖x - y‖ ≤ eps`. -/
def iterLoop (sweep : Vec → Vec) : ℕ → Vec → ℕ → SolveResult
  | 0, _, _ => .outOfFuel
  | fuel + 1, x, cnt =>
    let y := x
    let x' := sweep x
    let cnt' := cnt + 1
    if stopCond x' y then .ok x' cnt' else iterLoop sweep fuel x' cnt'

/-- `jacobi(A, b, x0)`: pre-flight convergence check, then the Jacobi
iteration starting from `x0` with counter `0`. -/
def jacobi (la : LinAlg) (A : Mat) (b : Vec) (x0 : Vec) (fuel : ℕ) : SolveResult :=
  if check_jacobi_convergency la A = false then .sentinel
  else iterLoop (sweepJacobi A b) fuel x0 0

/-- `gauss_seidel(A, b, x0)`: pre-flight convergence check, then the
Gauss-Seidel iteration starting from `x0` with counter `0`. -/
def gauss_seidel (la : LinAlg) (A : Mat) (b : Vec) (x0 : Vec) (fuel : ℕ) : SolveResult :=
  if check_gauss_seidel_convergency la A = false then .sentinel
  else iterLoop (sweepGaussSeidel A b) fuel x0 0

/-- `successive_over_relaxation(A, b, w, x0)`: pre-flight convergence
check, then the SOR iteration starting from `x0` with counter `0`. -/
def successive_over_relaxation (la : LinAlg) (A : Mat) (b : Vec) (w : ℚ) (x0 : Vec)
    (fuel : ℕ) : SolveResult :=
  if check_successive_over_relaxation_convergency la A w = false then .sentinel
  else iterLoop (sweepSOR A b w) fuel x0 0

/-!
## Conjugate gradient
-/

/-- `dot(u, v)` of two vectors of length `u.length`. -/
def dotV (u v : Vec) : ℚ := ∑ j ∈ Finset.range u.length, vEnt u j * vEnt v j

/-- `dot(A, v)`: matrix-vector product, `n = A.length`. -/
def matVec (A : Mat) (v : Vec) : Vec :=
  (List.range A.length).map fun i => ∑ j ∈ Finset.range A.length, mEnt A i j * vEnt v j

/-- `dot(v.T, A)`: row-vector times matrix, `n = A.length`. -/
def vecMat (v : Vec) (A : Mat) : Vec :=
  (List.range A.length).map fun j => ∑ i ∈ Finset.range A.length, vEnt v i * mEnt A i j

/-- Elementwise vector sum. -/
def vAdd (u v : Vec) : Vec := List.zipWith (· + ·) u v

/-- Elementwise vector difference. -/
def vSub (u v : Vec) : Vec := List.zipWith (· - ·) u v

/-- Scalar multiple `dot(c, v)` of a vector. -/
def vSMul (c : ℚ) (v : Vec) : Vec := v.map (fun a => c * a)

/-- `check_symmetric_and_positive_definite_matrix(A)`: `(A.T == A).all()`
elementwise over the `n×n` index range, then `any(eigvals(A) < 0)`. -/
def check_symmetric_and_positive_definite_matrix (la : LinAlg) (A : Mat) : Bool :=
  if ((List.range A.length).all fun i =>
      (List.range A.length).all fun j => mEnt A j i = mEnt A i j) = false then false
  else if (la.eigvals A).any (fun v => decide (v < 0)) then false
  else true

/-- The `while True` loop of `conjugate_gradient`: standard CG updates of
`(x, r, p)`, counter incremented each sweep, stop when `‖x - y‖ ≤ eps`. -/
def cgLoop (A : Mat) : ℕ → Vec → Vec → Vec → ℕ → SolveResult
  | 0, _, _, _, _ => .outOfFuel
  | fuel + 1, x, r, p, cnt =>
    let y := x
    let alpha := dotV r r / dotV (vecMat p A) p
    let x' := vAdd x (vSMul alpha p)
    let old_r := r
    let r' := vSub r (vSMul alpha (matVec A p))
    let beta := dotV r' r' / dotV old_r old_r
    let p' := vAdd r' (vSMul beta p)
    let cnt' := cnt + 1
    if stopCond x' y then .ok x' cnt' else cgLoop A fuel x' r' p' cnt'

/-- `conjugate_gradient(A, b, x0)`: SPD pre-flight check, then CG from
`x = x0`, `r = p = b - A·x0`, with the counter initialized to `1`. -/
def conjugate_gradient (la : LinAlg) (A : Mat) (b : Vec) (x0 : Vec) (fuel : ℕ) : SolveResult :=
  if check_symmetric_and_positive_definite_matrix la A = false then .sentinel
  else
    let r := vSub b (matVec A x0)
    cgLoop A fuel x0 r r 1

/-!
## Pivoted Gaussian elimination

The forward phase is a fold over pivot columns `i ∈ [0, n-1)` and rows
`j ∈ (i, n)`; each step optionally swaps rows `i` and `j` (the swap
condition is a parameter, the source uses the raw comparison
`A[j, i] > A[i, i]`), then eliminates row `j` when `A[j, i] ≠ 0`.
The third state component instruments the run: it records whether any
division (`m = A[j,i] / A[i,i]` or a back-substitution pivot) has a zero
divisor — in the floating-point source such a division silently produces
`inf`/`nan` rather than raising an error.
-/

/-- Swap rows `i` and `j` of `A` (`A[[i, j], :] = A[[j, i], :]`). -/
def swapRows (A : Mat) (i j : ℕ) : Mat :=
  let ri := A.getD i []
  let rj := A.getD j []
  (A.set i rj).set j ri

/-- Swap entries `i` and `j` of `b` (`b[[i, j]] = b[[j, i]]`). -/
def swapEnts (b : Vec) (i j : ℕ) : Vec :=
  let bi := vEnt b i
  let bj := vEnt b j
  (b.set i bj).set j bi

/-- Row update `A[j, i:n] = A[j, i:n] - m * A[i, i:n]`. -/
def elimRow (A : Mat) (i j : ℕ) (m : ℚ) : Mat :=
  A.set j ((List.range (A.getD j []).length).map fun t =>
    if i ≤ t then mEnt A j t - m * mEnt A i t else mEnt A j t)

/-- The swap half of one forward-elimination step: swap rows `i` and `j`
of `A` and `b` when `cond A[j,i] A[i,i]` holds. -/
def gaussStepSwap (cond : ℚ → ℚ → Bool) (i j : ℕ) (st : Mat × Vec) : Mat × Vec :=
  if cond (mEnt st.1 j i) (mEnt st.1 i i) then (swapRows st.1 i j, swapEnts st.2 i j) else st

/-- The elimination half of one forward-elimination step (with the
zero-divisor instrumentation flag). -/
def gaussStepElim (i j : ℕ) (st : Mat × Vec × Bool) : Mat × Vec × Bool :=
  if mEnt st.1 j i ≠ 0 then
    let m := mEnt st.1 j i / mEnt st.1 i i
    (elimRow st.1 i j m, (st.2.1.set j (vEnt st.2.1 j - m * vEnt st.2.1 i)),
      st.2.2 || decide (mEnt st.1 i i = 0))
  else st

/-- Forward elimination: the double loop
`for i in range(0, n-1): for j in range(i+1, n): ...` threading `(A, b)`
and the zero-divisor flag. -/
def gaussForwardF (cond : ℚ → ℚ → Bool) (A : Mat) (b : Vec) : Mat × Vec × Bool :=
  let n := A.length
  (List.range (n - 1)).foldl
    (fun st i =>
      (List.range' (i + 1) (n - 1 - i)).foldl
        (fun st j =>
          let sw := gaussStepSwap cond i j (st.1, st.2.1)
          gaussStepElim i j (sw.1, sw.2, st.2.2))
        st)
    (A, b, false)

/-- Back substitution
`for k in range(n-1, -1, -1): b[k] = (b[k] - dot(A[k, k+1:n], b[k+1:n])) / A[k,k]`,
reading the already-updated entries `b[t]`, `t > k`, in place. -/
def gaussBack (A : Mat) (b : Vec) : Vec :=
  let n := A.length
  (List.range n).reverse.foldl
    (fun b k =>
      b.set k ((vEnt b k - ∑ t ∈ Finset.Ico (k + 1) n, mEnt A k t * vEnt b t) / mEnt A k k))
    b

/-- Pivoted Gaussian elimination parameterized by the row-swap condition. -/
def pivotGaussWith (cond : ℚ → ℚ → Bool) (A : Mat) (b : Vec) : Vec :=
  let fw := gaussForwardF cond A b
  gaussBack fw.1 fw.2.1

/-- The source's swap condition: the raw signed comparison `A[j,i] > A[i,i]`. -/
def gtRaw (p q : ℚ) : Bool := decide (q < p)

/-- Standard partial pivoting's condition `|A[j,i]| > |A[i,i]|` (what the
source does NOT use). -/
def gtMagnitude (p q : ℚ) : Bool := decide (|q| < |p|)

/-- `pivot_gauss(A, b)`: forward elimination with the raw-comparison row
swap, then back substitution; returns `x` (which aliases the worked copy
of `b` in the source). -/
def pivot_gauss (A : Mat) (b : Vec) : Vec := pivotGaussWith gtRaw A b

/-- Detector: does `pivot_gauss(A, b)` ever divide by zero?  Covers the
multipliers `m = A[j,i]/A[i,i]` of the forward phase (flag component) and
the back-substitution divisors `A[k,k]` of the eliminated matrix. -/
def pivotGaussDivZero (A : Mat) (b : Vec) : Bool :=
  let fw := gaussForwardF gtRaw A b
  fw.2.2 || (List.range A.length).any (fun k => decide (mEnt fw.1 k k = 0))

/-!
## Doolittle LU decomposition

The source's double loop fills `u` row by row and `l` column by column;
each write only reads entries written earlier, so the filled entries
satisfy (and are determined by) the Doolittle recurrence
`u[k,j] = A[k,j] - Σ_{t<k} l[k,t]·u[t,j]` (for `j ≥ k`, else `0` from the
`zeros` initialization) and
`l[i,k] = (A[i,k] - Σ_{t<k} l[i,t]·u[t,k]) / u[k,k]` (for `i > k`, with
`l[i,i] = 1` and `l[i,k] = 0` for `i < k` from the `eye` initialization).
We realize that recurrence with a fuel argument to keep the definition
structurally recursive; any fuel above the row/column index gives the
same value (`uEntF_irrel`/`lEntF_irrel` below), and `uEnt`/`lEnt` fix a
sufficient fuel.
-/

mutual

/-- Fuel-indexed `u[k, j]` of the Doolittle recurrence. -/
def uEntF (A : Mat) : ℕ → ℕ → ℕ → ℚ
  | 0, _, _ => 0
  | fuel + 1, k, j =>
    if j < k then 0
    else mEnt A k j - ∑ t ∈ Finset.range k, lEntF A fuel k t * uEntF A fuel t j

/-- Fuel-indexed `l[i, k]` of the Doolittle recurrence. -/
def lEntF (A : Mat) : ℕ → ℕ → ℕ → ℚ
  | 0, _, _ => 0
  | fuel + 1, i, k =>
    if i = k then 1
    else if i < k then 0
    else (mEnt A i k - ∑ t ∈ Finset.range k, lEntF A fuel i t * uEntF A fuel t k) /
      uEntF A fuel k k

end

/-- Entry `u[k, j]` of the Doolittle factor `U` of `A` (fuel `2k+1`
suffices: row `k` of `u` reads `l` columns and `u` rows below `k`). -/
def uEnt (A : Mat) (k j : ℕ) : ℚ := uEntF A (2 * k + 1) k j

/-- Entry `l[i, k]` of the Doolittle factor `L` of `A` (fuel `2k+2`
suffices: column `k` of `l` additionally reads `u[k,k]`). -/
def lEnt (A : Mat) (i k : ℕ) : ℚ := lEntF A (2 * k + 2) i k

/-- The materialized `n×n` factor `L`. -/
def lMat (A : Mat) : Mat :=
  (List.range A.length).map fun i => (List.range A.length).map fun k => lEnt A i k

/-- The materialized `n×n` factor `U`. -/
def uMat (A : Mat) : Mat :=
  (List.range A.length).map fun k => (List.range A.length).map fun j => uEnt A k j

/-- Forward substitution `y[i] = b[i] - Σ_{j<i} l[i,j]·y[j]`, filling a
`zeros(n)` vector in place (each write reads earlier writes). -/
def luForwardY (A : Mat) (b : Vec) : Vec :=
  (List.range A.length).foldl
    (fun y i => y.set i (vEnt b i - ∑ j ∈ Finset.range i, lEnt A i j * vEnt y j))
    (List.replicate A.length 0)

/-- Backward substitution `x[i] = (y[i] - Σ_{j>i} u[i,j]·x[j]) / u[i,i]`,
filling a `zeros(n)` vector in place from the last index down. -/
def luBackX (A : Mat) (y : Vec) : Vec :=
  (List.range A.length).reverse.foldl
    (fun x i =>
      x.set i ((vEnt y i - ∑ j ∈ Finset.Ico (i + 1) A.length, uEnt A i j * vEnt x j) / uEnt A i i))
    (List.replicate A.length 0)

/-- `lu_decomposition_doolittle(A, b)`: build the factors, then solve the
two triangular systems; returns `x`. -/
def lu_decomposition_doolittle (A : Mat) (b : Vec) : Vec := luBackX A (luForwardY A b)

/-- Detector: does `lu_decomposition_doolittle(A, b)` divide by zero?
Every diagonal entry `u[i,i]`, `i < n`, is used as a divisor in the
backward-substitution loop (and `u[k,k]`, `k < n-1`, also in the `l`
recurrence), so a zero diagonal entry of `U` means a zero divisor. -/
def luDivZero (A : Mat) : Bool :=
  (List.range A.length).any fun i => decide (uEnt A i i = 0)

/-!
## Sweep counters

`iterSweeps` (resp. `cgSweeps`) counts how many sweep bodies the loop of
the stationary solvers (resp. conjugate gradient) executes before the
stopping test first succeeds; `none` if it does not succeed within the
fuel.  These are the "number of update sweeps actually performed" of the
iteration-count claim, defined independently of the returned counter.
-/

/-- Number of sweeps until the stopping test first holds. -/
def iterSweeps (sweep : Vec → Vec) : ℕ → Vec → Option ℕ
  | 0, _ => none
  | fuel + 1, x =>
    let x' := sweep x
    if stopCond x' x then some 1 else (iterSweeps sweep fuel x').map (· + 1)

/-- Number of CG sweeps until the stopping test first holds. -/
def cgSweeps (A : Mat) : ℕ → Vec → Vec → Vec → Option ℕ
  | 0, _, _, _ => none
  | fuel + 1, x, r, p =>
    let alpha := dotV r r / dotV (vecMat p A) p
    let x' := vAdd x (vSMul alpha p)
    let r' := vSub r (vSMul alpha (matVec A p))
    let beta := dotV r' r' / dotV r r
    let p' := vAdd r' (vSMul beta p)
    if stopCond x' x then some 1 else (cgSweeps A fuel x' r' p').map (· + 1)

/-!
## Heap model (ownership contract)

To state the "solvers never mutate caller-owned arrays" claim we make the
reference structure explicit: a typed heap is a list of array cells, a
handle is an index into it.  `arr.copy()` allocates a fresh cell holding
the current value; in-place mutation writes a cell.  Each solver entry
point is re-expressed against the heap: it reads the caller's cells, puts
its working copies in fresh cells, and every in-place write of the source
targets one of those fresh cells (consecutive in-place writes to the same
fresh cell are collapsed to their net value, computed by the pure
functions above; arrays that are only rebound, never mutated, need no
cell).  Matrices live in an `MHeap`, vectors in a `VHeap`.
-/

/-- Matrix heap. -/
abbrev MHeap := List Mat

/-- Vector heap. -/
abbrev VHeap := List Vec

/-- Allocate a fresh cell (`arr.copy()`, `zeros(n)`, `eye(n)`): returns
the new handle and the grown heap. -/
def halloc (h : List α) (v : α) : ℕ × List α := (h.length, h ++ [v])

/-- `pivot_gauss` against the heap: copy `A` and `b` into fresh cells,
mutate only those copies (forward elimination on both, back substitution
on the `b` copy, which the returned `x` aliases). -/
def pivot_gaussH (mh : MHeap) (vh : VHeap) (hA hb : ℕ) : Vec × MHeap × VHeap :=
  let A := mh.getD hA []
  let b := vh.getD hb []
  let (cA, mh1) := halloc mh A
  let (cb, vh1) := halloc vh b
  let fw := gaussForwardF gtRaw A b
  let mh2 := mh1.set cA fw.1
  let x := gaussBack fw.1 fw.2.1
  let vh2 := vh1.set cb x
  (x, mh2, vh2)

/-- `lu_decomposition_doolittle` against the heap: copies of `A` and `b`
never written; `l`, `u`, `y`, `x` are fresh arrays (`eye`/`zeros`) filled
in place, held here with their net values. -/
def lu_decomposition_doolittleH (mh : MHeap) (vh : VHeap) (hA hb : ℕ) : Vec × MHeap × VHeap :=
  let A := mh.getD hA []
  let b := vh.getD hb []
  let mh1 := (halloc mh A).2
  let vh1 := (halloc vh b).2
  let mh2 := (halloc mh1 (lMat A)).2
  let mh3 := (halloc mh2 (uMat A)).2
  let y := luForwardY A b
  let vh2 := (halloc vh1 y).2
  let x := luBackX A y
  let vh3 := (halloc vh2 x).2
  (x, mh3, vh3)

/-- The stationary-iteration loop against the heap: `cx` is the cell of
the working iterate `x`; each sweep allocates `y = x.copy()` and writes
the sweep's updates into cell `cx`. -/
def iterLoopH (sweep : Vec → Vec) : ℕ → VHeap → ℕ → ℕ → SolveResult × VHeap
  | 0, vh, _, _ => (.outOfFuel, vh)
  | fuel + 1, vh, cx, cnt =>
    let x := vh.getD cx []
    let vh1 := (halloc vh x).2
    let x' := sweep x
    let vh2 := vh1.set cx x'
    if stopCond x' x then (.ok x' (cnt + 1), vh2) else iterLoopH sweep fuel vh2 cx (cnt + 1)

/-- Shared shape of `jacobi`/`gauss_seidel`/`successive_over_relaxation`
against the heap: copy `A` and `b`, pre-flight check, copy `x0` into a
fresh cell and iterate on it. -/
def iterSolveH (check : Bool) (sweep : Vec → Vec) (fuel : ℕ) (mh : MHeap) (vh : VHeap)
    (hA hb hx0 : ℕ) : SolveResult × MHeap × VHeap :=
  let mh1 := (halloc mh (mh.getD hA [])).2
  let vh1 := (halloc vh (vh.getD hb [])).2
  if check = false then (.sentinel, mh1, vh1)
  else
    let (cx, vh2) := halloc vh1 (vh1.getD hx0 [])
    let r := iterLoopH sweep fuel vh2 cx 0
    (r.1, mh1, r.2)

/-- `jacobi` against the heap. -/
def jacobiH (la : LinAlg) (mh : MHeap) (vh : VHeap) (hA hb hx0 : ℕ) (fuel : ℕ) :
    SolveResult × MHeap × VHeap :=
  iterSolveH (check_jacobi_convergency la (mh.getD hA []))
    (sweepJacobi (mh.getD hA []) (vh.getD hb [])) fuel mh vh hA hb hx0

/-- `gauss_seidel` against the heap. -/
def gauss_seidelH (la : LinAlg) (mh : MHeap) (vh : VHeap) (hA hb hx0 : ℕ) (fuel : ℕ) :
    SolveResult × MHeap × VHeap :=
  iterSolveH (check_gauss_seidel_convergency la (mh.getD hA []))
    (sweepGaussSeidel (mh.getD hA []) (vh.getD hb [])) fuel mh vh hA hb hx0

/-- `successive_over_relaxation` against the heap. -/
def successive_over_relaxationH (la : LinAlg) (mh : MHeap) (vh : VHeap) (w : ℚ)
    (hA hb hx0 : ℕ) (fuel : ℕ) : SolveResult × MHeap × VHeap :=
  iterSolveH (check_successive_over_relaxation_convergency la (mh.getD hA []) w)
    (sweepSOR (mh.getD hA []) (vh.getD hb []) w) fuel mh vh hA hb hx0

/-- `conjugate_gradient` against the heap: copies of `A`, `b`, `x0` are
never written in place — the CG loop only rebinds `x`, `r`, `p` to fresh
arrays — so after the three copy allocations the loop is pure. -/
def conjugate_gradientH (la : LinAlg) (mh : MHeap) (vh : VHeap) (hA hb hx0 : ℕ) (fuel : ℕ) :
    SolveResult × MHeap × VHeap :=
  let A := mh.getD hA []
  let b := vh.getD hb []
  let mh1 := (halloc mh A).2
  let vh1 := (halloc vh b).2
  if check_symmetric_and_positive_definite_matrix la A = false then (.sentinel, mh1, vh1)
  else
    let x0 := vh1.getD hx0 []
    let vh2 := (halloc vh1 x0).2
    let r := vSub b (matVec A x0)
    (cgLoop A fuel x0 r r 1, mh1, vh2)

/-!
## Helper lemmas
-/

theorem eps_pos : (0 : ℚ) < eps := by norm_num [eps]

theorem cgLoop_ne_sentinel (A : Mat) :
    ∀ fuel x r p cnt, cgLoop A fuel x r p cnt ≠ .sentinel := by
  intro fuel
  induction fuel with
  | zero => intro x r p cnt h; simp [cgLoop] at h
  | succ f ih =>
    intro x r p cnt h
    rw [cgLoop] at h
    split at h
    · exact SolveResult.noConfusion h
    · exact ih _ _ _ _ h

theorem getD_set_ne (v : ℚ) :
    ∀ (x : Vec) (k j : ℕ), j ≠ k → (x.set k v).getD j 0 = x.getD j 0 := by
  intro x
  induction x with
  | nil => intro k j _; rfl
  | cons a t ih =>
    intro k j hjk
    cases k with
    | zero =>
      cases j with
      | zero => exact absurd rfl hjk
      | succ j' => rfl
    | succ k' =>
      cases j with
      | zero => rfl
      | succ j' => exact ih k' j' (by omega)

theorem getD_set_self (v : ℚ) :
    ∀ (x : Vec) (k : ℕ), k < x.length → (x.set k v).getD k 0 = v := by
  intro x
  induction x with
  | nil => intro k h; simp at h
  | cons a t ih =>
    intro k h
    cases k with
    | zero => rfl
    | succ k' => exact ih k' (by simpa using h)

/-- An in-place update loop `for k in l: x[k] = g(x, k)` never changes the
array's length. -/
theorem foldl_body_length (body : Vec → ℕ → Vec) (g : Vec → ℕ → ℚ)
    (hbody : ∀ acc k, body acc k = acc.set k (g acc k)) :
    ∀ (l : List ℕ) (x : Vec), (l.foldl body x).length = x.length := by
  intro l
  induction l with
  | nil => intro x; rfl
  | cons a t ih =>
    intro x
    rw [List.foldl_cons, ih, hbody, List.length_set]

theorem range_foldl_body_succ (body : Vec → ℕ → Vec) (m : ℕ) (x0 : Vec) :
    (List.range (m + 1)).foldl body x0 = body ((List.range m).foldl body x0) m := by
  rw [List.range_succ, List.foldl_append, List.foldl_cons, List.foldl_nil]

/-- Indices not yet visited by the update loop still hold their initial
values. -/
theorem range_foldl_body_untouched (body : Vec → ℕ → Vec) (g : Vec → ℕ → ℚ)
    (hbody : ∀ acc k, body acc k = acc.set k (g acc k)) (x0 : Vec) :
    ∀ (m j : ℕ), m ≤ j → vEnt ((List.range m).foldl body x0) j = vEnt x0 j := by
  intro m
  induction m with
  | zero => intro j _; rfl
  | succ m ih =>
    intro j hj
    rw [range_foldl_body_succ, hbody]
    unfold vEnt
    rw [getD_set_ne _ _ _ _ (by omega)]
    exact ih j (by omega)

/-- Indices already visited by the update loop keep their values for the
rest of the loop. -/
theorem range_foldl_body_stable (body : Vec → ℕ → Vec) (g : Vec → ℕ → ℚ)
    (hbody : ∀ acc k, body acc k = acc.set k (g acc k)) (x0 : Vec) :
    ∀ (j m d : ℕ), j < m →
      vEnt ((List.range (m + d)).foldl body x0) j = vEnt ((List.range m).foldl body x0) j := by
  intro j m d
  induction d with
  | zero => intro _; rfl
  | succ d ih =>
    intro hj
    rw [show m + (d + 1) = (m + d) + 1 by omega, range_foldl_body_succ, hbody]
    unfold vEnt
    rw [getD_set_ne _ _ _ _ (by omega)]
    exact ih hj

/-- What the update loop leaves at index `i < n`: the value `g` computed
from the state of the array just before step `i`. -/
theorem range_foldl_body_getD (body : Vec → ℕ → Vec) (g : Vec → ℕ → ℚ)
    (hbody : ∀ acc k, body acc k = acc.set k (g acc k)) (x0 : Vec) (n i : ℕ)
    (hi : i < n) (hlen : n ≤ x0.length) :
    vEnt ((List.range n).foldl body x0) i = g ((List.range i).foldl body x0) i := by
  have h1 : vEnt ((List.range n).foldl body x0) i =
      vEnt ((List.range (i + 1)).foldl body x0) i := by
    have h := range_foldl_body_stable body g hbody x0 i (i + 1) (n - i - 1) (by omega)
    rw [show (i + 1) + (n - i - 1) = n by omega] at h
    exact h
  rw [h1, range_foldl_body_succ, hbody]
  unfold vEnt
  exact getD_set_self _ _ i (by rw [foldl_body_length body g hbody]; omega)

/-- Splitting the guarded loop sum `Σ_{j<n, j≠i}` at `i`. -/
theorem sum_ite_split (n i : ℕ) (hi : i < n) (h : ℕ → ℚ) :
    (∑ j ∈ Finset.range n, if j = i then 0 else h j) =
      (∑ j ∈ Finset.range i, h j) + ∑ j ∈ Finset.Ico (i + 1) n, h j := by
  rw [Finset.range_eq_Ico,
    ← Finset.sum_Ico_consecutive (fun j => if j = i then 0 else h j)
      (Nat.zero_le (i + 1)) (by omega)]
  congr 1
  · rw [← Finset.range_eq_Ico, Finset.sum_range_succ, if_pos rfl, add_zero]
    exact Finset.sum_congr rfl fun j hj =>
      if_neg (by have := Finset.mem_range.mp hj; omega)
  · exact Finset.sum_congr rfl fun j hj =>
      if_neg (by have := (Finset.mem_Ico.mp hj).1; omega)

/-- The guarded loop sum `Σ_{j<n, j≠i}` as a sum over the erased range. -/
theorem sum_ite_erase (n i : ℕ) (h : ℕ → ℚ) :
    (∑ j ∈ Finset.range n, if j = i then 0 else h j) =
      ∑ j ∈ (Finset.range n).erase i, h j := by
  have h0 : (fun j => if j = i then 0 else h j) i = 0 := if_pos rfl
  rw [← Finset.sum_erase (Finset.range n) h0]
  exact Finset.sum_congr rfl fun j hj => if_neg (Finset.ne_of_mem_erase hj)

theorem hget_append {α : Type} :
    ∀ (l l' : List α) (i : ℕ), i < l.length → (l ++ l').get? i = l.get? i := by
  intro l
  induction l with
  | nil => intro l' i h; simp at h
  | cons a t ih =>
    intro l' i h
    cases i with
    | zero => rfl
    | succ i' => exact ih l' i' (by simpa using h)

theorem hget_set_ne {α : Type} :
    ∀ (l : List α) (k i : ℕ) (v : α), i ≠ k → (l.set k v).get? i = l.get? i := by
  intro l
  induction l with
  | nil => intro k i v _; rfl
  | cons a t ih =>
    intro k i v hik
    cases k with
    | zero =>
      cases i with
      | zero => exact absurd rfl hik
      | succ i' => rfl
    | succ k' =>
      cases i with
      | zero => rfl
      | succ i' => exact ih k' i' v (by omega)

/-- The iteration loop only writes the working iterate's cell `cx`; every
cell below a bound `L ≤ cx` within the original heap is untouched. -/
theorem iterLoopH_frame (sweep : Vec → Vec) :
    ∀ (fuel : ℕ) (vh : VHeap) (cx cnt L : ℕ), L ≤ vh.length → L ≤ cx →
      ∀ i < L, (iterLoopH sweep fuel vh cx cnt).2.get? i = vh.get? i := by
  intro fuel
  induction fuel with
  | zero => intro vh cx cnt L hL hcx i hi; rfl
  | succ f ih =>
    intro vh cx cnt L hL hcx i hi
    have hvh2 : ∀ j < L,
        (((halloc vh (vh.getD cx [])).2).set cx (sweep (vh.getD cx []))).get? j =
          vh.get? j := by
      intro j hj
      rw [hget_set_ne _ _ _ _ (by omega)]
      exact hget_append _ _ _ (by omega)
    have hlen2 : L ≤ (((halloc vh (vh.getD cx [])).2).set cx
        (sweep (vh.getD cx []))).length := by
      simp only [halloc, List.length_set, List.length_append, List.length_cons,
        List.length_nil]
      omega
    rw [iterLoopH]
    by_cases hs : stopCond (sweep (vh.getD cx [])) (vh.getD cx []) = true
    · simp only [halloc] at hvh2 ⊢
      rw [if_pos hs]
      exact hvh2 i hi
    · simp only [halloc] at hvh2 hlen2 ⊢
      rw [if_neg hs]
      rw [ih _ cx (cnt + 1) L hlen2 hcx i hi]
      exact hvh2 i hi

/-- The shared stationary-solver shape only allocates fresh cells and
writes the fresh iterate cell: caller cells are untouched. -/
theorem iterSolveH_frame (check : Bool) (sweep : Vec → Vec) (fuel : ℕ) (mh : MHeap)
    (vh : VHeap) (hA hb hx0 : ℕ) (i : ℕ) :
    (i < mh.length →
      (iterSolveH check sweep fuel mh vh hA hb hx0).2.1.get? i = mh.get? i) ∧
    (i < vh.length →
      (iterSolveH check sweep fuel mh vh hA hb hx0).2.2.get? i = vh.get? i) := by
  constructor
  · intro hi
    unfold iterSolveH
    by_cases hc : check = false
    · simp only [halloc, hc, if_pos]
      exact hget_append _ _ _ hi
    · simp only [halloc, if_neg hc]
      exact hget_append _ _ _ hi
  · intro hi
    unfold iterSolveH
    by_cases hc : check = false
    · simp only [halloc, hc, if_pos]
      exact hget_append _ _ _ hi
    · simp only [halloc, if_neg hc]
      have hloop := iterLoopH_frame sweep fuel
        ((vh ++ [vh.getD hb []]) ++ [(vh ++ [vh.getD hb []]).getD hx0 []])
        (vh ++ [vh.getD hb []]).length 0 vh.length
        (by simp) (by simp) i hi
      rw [hloop]
      rw [hget_append _ _ _ (by simpa using Nat.lt_succ_of_lt hi)]
      exact hget_append _ _ _ hi

/-!
## Claim theorems
-/

/-- C1: `check_spectral_radius(B)` computes the spectral radius as the
infinity norm over the eigenvalues and returns `True` unless
`spectral_radius - 1 >= eps` or `1 - spectral_radius <= eps`; since the
first disjunct implies the second, it returns `True` exactly when the
radius is strictly below `1 - eps`, so any radius in `[1 - eps, ∞)` is
rejected. -/
theorem claim_C1_spectral_radius_verdict (la : LinAlg) (B : Mat) :
    check_spectral_radius la B = true ↔ spectralRadius (la.eigvals B) < 1 - eps := by
  have heps := eps_pos
  simp only [check_spectral_radius]
  split
  · next h =>
    constructor
    · intro hc; exact absurd hc (by simp)
    · intro hlt; exfalso; rcases h with h | h <;> linarith
  · next h =>
    push_neg at h
    constructor
    · intro _; linarith [h.2]
    · intro _; rfl

/-- C2: the claim (and the spec) demand an explicit SingularPivot error
when a pivot used for division is zero; the code instead divides by the
zero pivot and silently returns a numeric result vector.  At
`A = [[0]], b = [1]` both direct solvers divide by the zero pivot (flagged
by the detectors) yet still return a plain vector — in the embedding's
total rational arithmetic the value `[0]`, in the floating-point source an
`inf`/`nan`-valued vector, never a surfaced error. -/
theorem claim_C2_zero_pivot_not_surfaced :
    pivot_gauss [[0]] [1] = [0] ∧ pivotGaussDivZero [[0]] [1] = true ∧
      lu_decomposition_doolittle [[0]] [1] = [0] ∧ luDivZero [[0]] = true := by
  refine ⟨by with_unfolding_all decide, by with_unfolding_all decide,
    by with_unfolding_all decide, by with_unfolding_all decide⟩

/-- C3: whenever the relevant convergence check returns `False`, the
stationary iterative solvers return the `(NaN, NaN)` sentinel, perform no
sweep, and never consult the initial iterate `x0` (the result is the same
for any two initial iterates). -/
theorem claim_C3_failed_check_returns_sentinel (la : LinAlg) (A : Mat) (b x0 x0' : Vec)
    (w : ℚ) (fuel : ℕ) :
    (check_jacobi_convergency la A = false →
      jacobi la A b x0 fuel = .sentinel ∧
        jacobi la A b x0 fuel = jacobi la A b x0' fuel) ∧
    (check_gauss_seidel_convergency la A = false →
      gauss_seidel la A b x0 fuel = .sentinel ∧
        gauss_seidel la A b x0 fuel = gauss_seidel la A b x0' fuel) ∧
    (check_successive_over_relaxation_convergency la A w = false →
      successive_over_relaxation la A b w x0 fuel = .sentinel ∧
        successive_over_relaxation la A b w x0 fuel =
          successive_over_relaxation la A b w x0' fuel) := by
  refine ⟨fun h => ?_, fun h => ?_, fun h => ?_⟩ <;>
    simp [jacobi, gauss_seidel, successive_over_relaxation, h]

/-- Witness for C3 at a concrete input: an oracle reporting an eigenvalue
of magnitude `1` makes every check fail, and all three solvers return the
sentinel independently of the initial iterate. -/
theorem claim_C3_failed_check_returns_sentinel_witness :
    jacobi ⟨fun _ => [1], fun m => m⟩ [[2]] [2] [1] 3 = .sentinel ∧
      jacobi ⟨fun _ => [1], fun m => m⟩ [[2]] [2] [1] 3 =
        jacobi ⟨fun _ => [1], fun m => m⟩ [[2]] [2] [5] 3 ∧
      gauss_seidel ⟨fun _ => [1], fun m => m⟩ [[2]] [2] [1] 3 = .sentinel ∧
      successive_over_relaxation ⟨fun _ => [1], fun m => m⟩ [[2]] [2] (3/2) [1] 3 =
        .sentinel := by
  have h := claim_C3_failed_check_returns_sentinel ⟨fun _ => [1], fun m => m⟩
    [[2]] [2] [1] [5] (3/2) 3
  exact ⟨(h.1 (by with_unfolding_all decide)).1, (h.1 (by with_unfolding_all decide)).2, (h.2.1 (by with_unfolding_all decide)).1,
    (h.2.2 (by with_unfolding_all decide)).1⟩

/-- C4: `conjugate_gradient` iterates exactly when the pre-flight check
passes, the check passes exactly when `A` is elementwise symmetric and no
reported eigenvalue is negative, and on a failed check the solver returns
the sentinel without consulting `x0`. -/
theorem claim_C4_cg_preflight_check (la : LinAlg) (A : Mat) (b x0 x0' : Vec) (fuel : ℕ) :
    (check_symmetric_and_positive_definite_matrix la A = true ↔
      ((∀ i < A.length, ∀ j < A.length, mEnt A j i = mEnt A i j) ∧
        ∀ v ∈ la.eigvals A, 0 ≤ v)) ∧
    (conjugate_gradient la A b x0 fuel = .sentinel ↔
      check_symmetric_and_positive_definite_matrix la A = false) ∧
    (check_symmetric_and_positive_definite_matrix la A = false →
      conjugate_gradient la A b x0 fuel = conjugate_gradient la A b x0' fuel) := by
  refine ⟨?_, ⟨fun h => ?_, fun h => ?_⟩, fun h => ?_⟩
  · unfold check_symmetric_and_positive_definite_matrix
    constructor
    · intro h
      split at h
      · exact absurd h (by simp)
      · next hall =>
        rw [Bool.not_eq_false, List.all_eq_true] at hall
        split at h
        · exact absurd h (by simp)
        · next hany =>
          refine ⟨fun i hi j hj => ?_, fun v hv => ?_⟩
          · have := hall i (List.mem_range.mpr hi)
            rw [List.all_eq_true] at this
            simpa using this j (List.mem_range.mpr hj)
          · by_contra hneg
            exact hany (List.any_eq_true.mpr ⟨v, hv, by simpa using lt_of_not_le hneg⟩)
    · rintro ⟨hsym, hev⟩
      have hall : ((List.range A.length).all fun i =>
          (List.range A.length).all fun j =>
            decide (mEnt A j i = mEnt A i j)) = true := by
        rw [List.all_eq_true]
        intro i hi
        rw [List.all_eq_true]
        intro j hj
        simpa using hsym i (List.mem_range.mp hi) j (List.mem_range.mp hj)
      rw [if_neg (by simp [hall])]
      rw [if_neg ?_]
      simp only [Bool.not_eq_true, List.any_eq_false]
      intro v hv
      simpa using not_lt.mpr (hev v hv)
  · by_contra hc
    rw [Bool.not_eq_false] at hc
    unfold conjugate_gradient at h
    rw [if_neg (by simp [hc])] at h
    exact cgLoop_ne_sentinel A fuel _ _ _ _ h
  · unfold conjugate_gradient
    rw [if_pos h]
  · unfold conjugate_gradient
    rw [if_pos h, if_pos h]

/-- Witness for C4 at a concrete input: a non-symmetric matrix fails the
check, CG returns the sentinel for two different initial iterates, and a
symmetric matrix with a nonnegative reported spectrum passes the check. -/
theorem claim_C4_cg_preflight_check_witness :
    conjugate_gradient ⟨fun _ => [0], fun m => m⟩ [[0, 1], [0, 0]] [1, 1] [0, 0] 3 =
        .sentinel ∧
      conjugate_gradient ⟨fun _ => [0], fun m => m⟩ [[0, 1], [0, 0]] [1, 1] [0, 0] 3 =
        conjugate_gradient ⟨fun _ => [0], fun m => m⟩ [[0, 1], [0, 0]] [1, 1] [9, 9] 3 ∧
      check_symmetric_and_positive_definite_matrix ⟨fun _ => [0], fun m => m⟩ [[1]] =
        true := by
  have h := claim_C4_cg_preflight_check ⟨fun _ => [0], fun m => m⟩ [[0, 1], [0, 0]]
    [1, 1] [0, 0] [9, 9] 3
  have h' := claim_C4_cg_preflight_check ⟨fun _ => [0], fun m => m⟩ [[1]] [1] [0] [0] 3
  exact ⟨h.2.1.mpr (by with_unfolding_all decide), h.2.2 (by with_unfolding_all decide),
    h'.1.mpr ⟨by with_unfolding_all decide, by with_unfolding_all decide⟩⟩

/-- C5: a Jacobi sweep sets every component `i < n` to
`(b[i] - Σ_{j≠i} A[i,j]·y[j]) / A[i,i]` where `y` is the complete
previous iterate: although the loop writes `x` in place, no update reads
a component written in the same sweep. -/
theorem claim_C5_jacobi_sweep_reads_previous_iterate (A : Mat) (b y : Vec)
    (hlen : y.length = A.length) (i : ℕ) (hi : i < A.length) :
    vEnt (sweepJacobi A b y) i =
      (vEnt b i - ∑ j ∈ (Finset.range A.length).erase i, mEnt A i j * vEnt y j) /
        mEnt A i i := by
  have h := range_foldl_body_getD
    (fun acc k => acc.set k ((vEnt b k -
      ∑ j ∈ Finset.range A.length, if j = k then 0 else mEnt A k j * vEnt y j) / mEnt A k k))
    (fun _ k => (vEnt b k -
      ∑ j ∈ Finset.range A.length, if j = k then 0 else mEnt A k j * vEnt y j) / mEnt A k k)
    (fun _ _ => rfl) y A.length i hi (le_of_eq hlen.symm)
  rw [show sweepJacobi A b y = (List.range A.length).foldl
    (fun acc k => acc.set k ((vEnt b k -
      ∑ j ∈ Finset.range A.length, if j = k then 0 else mEnt A k j * vEnt y j) / mEnt A k k))
    y from rfl]
  rw [h]
  beta_reduce
  rw [sum_ite_erase]

/-- Witness for C5 at a concrete input. -/
theorem claim_C5_jacobi_sweep_reads_previous_iterate_witness :
    ([1, 1] : Vec).length = ([[2, 1], [1, 2]] : Mat).length ∧
      vEnt (sweepJacobi [[2, 1], [1, 2]] [3, 3] [1, 1]) 0 =
        (vEnt [3, 3] 0 -
            ∑ j ∈ (Finset.range ([[2, 1], [1, 2]] : Mat).length).erase 0,
              mEnt [[2, 1], [1, 2]] 0 j * vEnt [1, 1] j) /
          mEnt [[2, 1], [1, 2]] 0 0 :=
  ⟨by decide, claim_C5_jacobi_sweep_reads_previous_iterate [[2, 1], [1, 2]] [3, 3] [1, 1]
    (by decide) 0 (by decide)⟩

/-- C6: a Gauss-Seidel sweep sets every component `i < n` to
`(b[i] - Σ_{j<i} A[i,j]·x_new[j] - Σ_{j>i} A[i,j]·x_old[j]) / A[i,i]`:
the in-place update sees the already-updated values of earlier components
of the same sweep and the previous values of later components. -/
theorem claim_C6_gauss_seidel_sweep_sequential (A : Mat) (b x0 : Vec)
    (hlen : x0.length = A.length) (i : ℕ) (hi : i < A.length) :
    vEnt (sweepGaussSeidel A b x0) i =
      (vEnt b i -
          (∑ j ∈ Finset.range i, mEnt A i j * vEnt (sweepGaussSeidel A b x0) j) -
          ∑ j ∈ Finset.Ico (i + 1) A.length, mEnt A i j * vEnt x0 j) / mEnt A i i := by
  set n := A.length with hn
  set g : Vec → ℕ → ℚ := fun acc k =>
    (vEnt b k - ∑ j ∈ Finset.range n, if j = k then 0 else mEnt A k j * vEnt acc j) /
      mEnt A k k with hg
  set body : Vec → ℕ → Vec := fun acc k => acc.set k (g acc k) with hbodydef
  have hbody : ∀ acc k, body acc k = acc.set k (g acc k) := fun _ _ => rfl
  have hsweep : sweepGaussSeidel A b x0 = (List.range n).foldl body x0 := rfl
  have hmain := range_foldl_body_getD body g hbody x0 n i hi (le_of_eq hlen.symm)
  rw [hsweep, hmain, hg]
  beta_reduce
  rw [sum_ite_split n i hi]
  have hlow : ∀ j ∈ Finset.range i,
      mEnt A i j * vEnt ((List.range i).foldl body x0) j =
        mEnt A i j * vEnt ((List.range n).foldl body x0) j := by
    intro j hj
    have hj' := Finset.mem_range.mp hj
    congr 1
    have h1 := range_foldl_body_stable body g hbody x0 j (j + 1) (i - j - 1) (by omega)
    have h2 := range_foldl_body_stable body g hbody x0 j (j + 1) (n - j - 1) (by omega)
    rw [show (j + 1) + (i - j - 1) = i by omega] at h1
    rw [show (j + 1) + (n - j - 1) = n by omega] at h2
    rw [h1, h2]
  have hhigh : ∀ j ∈ Finset.Ico (i + 1) n,
      mEnt A i j * vEnt ((List.range i).foldl body x0) j = mEnt A i j * vEnt x0 j := by
    intro j hj
    congr 1
    exact range_foldl_body_untouched body g hbody x0 i j
      (by have := (Finset.mem_Ico.mp hj).1; omega)
  rw [Finset.sum_congr rfl hlow, Finset.sum_congr rfl hhigh, ← hsweep, sub_sub]

/-- Witness for C6 at a concrete input (component `1` sees component `0`'s
updated value). -/
theorem claim_C6_gauss_seidel_sweep_sequential_witness :
    ([0, 0] : Vec).length = ([[2, 1], [1, 2]] : Mat).length ∧
      vEnt (sweepGaussSeidel [[2, 1], [1, 2]] [3, 3] [0, 0]) 1 =
        (vEnt [3, 3] 1 -
            (∑ j ∈ Finset.range 1,
              mEnt [[2, 1], [1, 2]] 1 j * vEnt (sweepGaussSeidel [[2, 1], [1, 2]] [3, 3] [0, 0]) j) -
            ∑ j ∈ Finset.Ico (1 + 1) ([[2, 1], [1, 2]] : Mat).length,
              mEnt [[2, 1], [1, 2]] 1 j * vEnt [0, 0] j) /
          mEnt [[2, 1], [1, 2]] 1 1 :=
  ⟨by decide, claim_C6_gauss_seidel_sweep_sequential [[2, 1], [1, 2]] [3, 3] [0, 0]
    (by decide) 1 (by decide)⟩

/-- C7: each forward-elimination step of `pivot_gauss` swaps rows `i` and
`j` of the working copies of `A` and `b` exactly when the raw signed
comparison `A[j,i] > A[i,i]` holds at that point; it does not use the
magnitude comparison of standard partial pivoting — at
`A = [[0, 1], [-1, 0]], b = [1, 2]` the raw rule declines the swap and
runs into the zero pivot (returning `[0, 0]` under total rational
division), while the magnitude rule would swap and solve exactly,
returning `[-2, 1]`. -/
theorem claim_C7_pivot_swap_raw_comparison :
    (∀ (A : Mat) (b : Vec) (i j : ℕ),
      gaussStepSwap gtRaw i j (A, b) =
        if mEnt A i i < mEnt A j i then (swapRows A i j, swapEnts b i j) else (A, b)) ∧
      pivot_gauss [[0, 1], [-1, 0]] [1, 2] = [0, 0] ∧
      pivotGaussWith gtMagnitude [[0, 1], [-1, 0]] [1, 2] = [-2, 1] := by
  refine ⟨fun A b i j => ?_, by with_unfolding_all decide, by with_unfolding_all decide⟩
  by_cases hc : mEnt A i i < mEnt A j i <;> simp [gaussStepSwap, gtRaw, hc]

/-- Fuel does not matter once it exceeds the recursion depth: any fuel
`≥ 2k+1` gives the same `u[k, ·]`, any fuel `≥ 2k+2` the same `l[·, k]`. -/
theorem uEntF_lEntF_irrel (A : Mat) :
    ∀ k : ℕ,
      (∀ j f f', 2 * k + 1 ≤ f → 2 * k + 1 ≤ f' → uEntF A f k j = uEntF A f' k j) ∧
      (∀ i f f', 2 * k + 2 ≤ f → 2 * k + 2 ≤ f' → lEntF A f i k = lEntF A f' i k) := by
  intro k
  induction k using Nat.strong_induction_on with
  | _ k ih =>
    have hu : ∀ j f f', 2 * k + 1 ≤ f → 2 * k + 1 ≤ f' →
        uEntF A f k j = uEntF A f' k j := by
      intro j f f' hf hf'
      obtain ⟨fu, rfl⟩ : ∃ fu, f = fu + 1 := ⟨f - 1, by omega⟩
      obtain ⟨fu', rfl⟩ : ∃ fu', f' = fu' + 1 := ⟨f' - 1, by omega⟩
      by_cases hjk : j < k
      · simp [uEntF, hjk]
      · simp only [uEntF, if_neg hjk]
        congr 1
        apply Finset.sum_congr rfl
        intro t ht
        have htk := Finset.mem_range.mp ht
        rw [(ih t htk).2 k fu fu' (by omega) (by omega),
          (ih t htk).1 j fu fu' (by omega) (by omega)]
    refine ⟨hu, ?_⟩
    intro i f f' hf hf'
    obtain ⟨fu, rfl⟩ : ∃ fu, f = fu + 1 := ⟨f - 1, by omega⟩
    obtain ⟨fu', rfl⟩ : ∃ fu', f' = fu' + 1 := ⟨f' - 1, by omega⟩
    by_cases hik : i = k
    · simp [lEntF, hik]
    · by_cases hlt : i < k
      · simp [lEntF, hik, hlt]
      · simp only [lEntF, if_neg hik, if_neg hlt]
        congr 1
        · congr 1
          apply Finset.sum_congr rfl
          intro t ht
          have htk := Finset.mem_range.mp ht
          rw [(ih t htk).2 i fu fu' (by omega) (by omega),
            (ih t htk).1 k fu fu' (by omega) (by omega)]
        · exact hu k fu fu' (by omega) (by omega)

theorem uEntF_succ (A : Mat) (f k j : ℕ) :
    uEntF A (f + 1) k j = if j < k then 0
      else mEnt A k j - ∑ t ∈ Finset.range k, lEntF A f k t * uEntF A f t j := rfl

theorem lEntF_succ (A : Mat) (f i k : ℕ) :
    lEntF A (f + 1) i k = if i = k then 1 else if i < k then 0
      else (mEnt A i k - ∑ t ∈ Finset.range k, lEntF A f i t * uEntF A f t k) /
        uEntF A f k k := rfl

/-- The recurrence satisfied by `uEnt`: `0` below the diagonal (the
`zeros` initialization), `A[k,j] - Σ_{t<k} l[k,t]·u[t,j]` at and above. -/
theorem uEnt_eq (A : Mat) (k j : ℕ) :
    uEnt A k j = if j < k then 0
      else mEnt A k j - ∑ t ∈ Finset.range k, lEnt A k t * uEnt A t j := by
  have h0 : uEnt A k j = uEntF A (2 * k + 1) k j := rfl
  rw [h0, uEntF_succ]
  by_cases hjk : j < k
  · simp [hjk]
  · simp only [if_neg hjk]
    congr 1
    apply Finset.sum_congr rfl
    intro t ht
    have htk := Finset.mem_range.mp ht
    rw [(uEntF_lEntF_irrel A t).2 k (2 * k) (2 * t + 2) (by omega) (by omega),
      (uEntF_lEntF_irrel A t).1 j (2 * k) (2 * t + 1) (by omega) (by omega)]
    rfl

/-- The recurrence satisfied by `lEnt`: `1` on the diagonal and `0` above
(the `eye` initialization),
`(A[i,k] - Σ_{t<k} l[i,t]·u[t,k]) / u[k,k]` below. -/
theorem lEnt_eq (A : Mat) (i k : ℕ) :
    lEnt A i k = if i = k then 1 else if i < k then 0
      else (mEnt A i k - ∑ t ∈ Finset.range k, lEnt A i t * uEnt A t k) / uEnt A k k := by
  have h0 : lEnt A i k = lEntF A ((2 * k + 1) + 1) i k := rfl
  rw [h0, lEntF_succ]
  by_cases hik : i = k
  · simp [hik]
  · by_cases hlt : i < k
    · simp [hik, hlt]
    · simp only [if_neg hik, if_neg hlt]
      have hsum : ∑ t ∈ Finset.range k, lEntF A (2 * k + 1) i t * uEntF A (2 * k + 1) t k =
          ∑ t ∈ Finset.range k, lEnt A i t * uEnt A t k := by
        apply Finset.sum_congr rfl
        intro t ht
        have htk := Finset.mem_range.mp ht
        rw [(uEntF_lEntF_irrel A t).2 i (2 * k + 1) (2 * t + 2) (by omega) (by omega),
          (uEntF_lEntF_irrel A t).1 k (2 * k + 1) (2 * t + 1) (by omega) (by omega)]
        rfl
      rw [hsum]
      rfl

theorem lEnt_diag (A : Mat) (i : ℕ) : lEnt A i i = 1 := by
  rw [lEnt_eq]; simp

theorem lEnt_of_lt (A : Mat) {i k : ℕ} (h : i < k) : lEnt A i k = 0 := by
  rw [lEnt_eq, if_neg (by omega), if_pos h]

theorem uEnt_of_lt (A : Mat) {k j : ℕ} (h : j < k) : uEnt A k j = 0 := by
  rw [uEnt_eq, if_pos h]

/-- In exact arithmetic the Doolittle factors reconstruct `A` elementwise,
provided the pivots `u[k,k]` used as divisors are nonzero. -/
theorem lu_prod (A : Mat) (h : ∀ k, k + 1 < A.length → uEnt A k k ≠ 0) (i j : ℕ)
    (hi : i < A.length) (hj : j < A.length) :
    ∑ t ∈ Finset.range A.length, lEnt A i t * uEnt A t j = mEnt A i j := by
  rcases le_or_lt i j with hij | hij
  · rw [Finset.range_eq_Ico,
      ← Finset.sum_Ico_consecutive (fun t => lEnt A i t * uEnt A t j)
        (Nat.zero_le (i + 1)) (by omega)]
    have h2 : ∑ t ∈ Finset.Ico (i + 1) A.length, lEnt A i t * uEnt A t j = 0 := by
      apply Finset.sum_eq_zero
      intro t ht
      rw [lEnt_of_lt A (by have := (Finset.mem_Ico.mp ht).1; omega), zero_mul]
    rw [h2, add_zero, ← Finset.range_eq_Ico, Finset.sum_range_succ, lEnt_diag, one_mul,
      uEnt_eq A i j, if_neg (by omega)]
    ring
  · rw [Finset.range_eq_Ico,
      ← Finset.sum_Ico_consecutive (fun t => lEnt A i t * uEnt A t j)
        (Nat.zero_le (j + 1)) (by omega)]
    have h2 : ∑ t ∈ Finset.Ico (j + 1) A.length, lEnt A i t * uEnt A t j = 0 := by
      apply Finset.sum_eq_zero
      intro t ht
      rw [uEnt_of_lt A (by have := (Finset.mem_Ico.mp ht).1; omega), mul_zero]
    rw [h2, add_zero, ← Finset.range_eq_Ico, Finset.sum_range_succ,
      lEnt_eq A i j, if_neg (by omega), if_neg (by omega),
      div_mul_cancel₀ _ (h j (by omega))]
    ring

/-- C8: for a matrix admitting an LU decomposition without pivoting (each
pivot `u[k,k]` used for division is nonzero), `lu_decomposition_doolittle`
builds a unit lower triangular `L` and an upper triangular `U` following
the Doolittle recurrence, and in exact arithmetic `L·U` equals `A`
elementwise. -/
theorem claim_C8_doolittle_factorization (A : Mat)
    (h : ∀ k, k + 1 < A.length → uEnt A k k ≠ 0) :
    (∀ i, lEnt A i i = 1) ∧
      (∀ i k, i < k → lEnt A i k = 0) ∧
      (∀ k j, j < k → uEnt A k j = 0) ∧
      (∀ k j, k ≤ j →
        uEnt A k j = mEnt A k j - ∑ t ∈ Finset.range k, lEnt A k t * uEnt A t j) ∧
      (∀ i k, k < i → lEnt A i k =
        (mEnt A i k - ∑ t ∈ Finset.range k, lEnt A i t * uEnt A t k) / uEnt A k k) ∧
      (∀ i j, i < A.length → j < A.length →
        ∑ t ∈ Finset.range A.length, lEnt A i t * uEnt A t j = mEnt A i j) := by
  refine ⟨lEnt_diag A, fun i k hik => lEnt_of_lt A hik, fun k j hjk => uEnt_of_lt A hjk,
    fun k j hkj => ?_, fun i k hki => ?_, fun i j hi hj => lu_prod A h i j hi hj⟩
  · rw [uEnt_eq, if_neg (by omega)]
  · rw [lEnt_eq, if_neg (by omega), if_neg (by omega)]

/-- Witness for C8 at `A = [[2, 1], [4, 5]]` (factors `L = [[1,0],[2,1]]`,
`U = [[2,1],[0,3]]`): the strictly-lower product entries reconstruct `A`
and the triangularity facts hold. -/
theorem claim_C8_doolittle_factorization_witness :
    (∑ t ∈ Finset.range 2, lEnt [[2, 1], [4, 5]] 1 t * uEnt [[2, 1], [4, 5]] t 0 =
        mEnt [[2, 1], [4, 5]] 1 0) ∧
      (∑ t ∈ Finset.range 2, lEnt [[2, 1], [4, 5]] 1 t * uEnt [[2, 1], [4, 5]] t 1 =
        mEnt [[2, 1], [4, 5]] 1 1) ∧
      lEnt [[2, 1], [4, 5]] 1 1 = 1 ∧ uEnt [[2, 1], [4, 5]] 1 0 = 0 := by
  have h := claim_C8_doolittle_factorization [[2, 1], [4, 5]] (by
    intro k hk
    simp only [List.length_cons, List.length_nil] at hk
    have hk0 : k = 0 := by omega
    subst hk0
    with_unfolding_all decide)
  exact ⟨h.2.2.2.2.2 1 0 (by decide) (by decide), h.2.2.2.2.2 1 1 (by decide) (by decide),
    h.1 1, h.2.2.1 1 0 (by decide)⟩

/-- C9: no solver entry point mutates a caller-owned array cell: after any
call, every cell of the caller's heaps holds exactly what it held before
the call — each solver works only on the private copies it allocates on
entry. -/
theorem claim_C9_no_caller_mutation (la : LinAlg) (mh : MHeap) (vh : VHeap)
    (hA hb hx0 : ℕ) (w : ℚ) (fuel : ℕ) (i : ℕ) :
    (i < mh.length →
      (pivot_gaussH mh vh hA hb).2.1.get? i = mh.get? i ∧
        (lu_decomposition_doolittleH mh vh hA hb).2.1.get? i = mh.get? i ∧
        (jacobiH la mh vh hA hb hx0 fuel).2.1.get? i = mh.get? i ∧
        (gauss_seidelH la mh vh hA hb hx0 fuel).2.1.get? i = mh.get? i ∧
        (successive_over_relaxationH la mh vh w hA hb hx0 fuel).2.1.get? i = mh.get? i ∧
        (conjugate_gradientH la mh vh hA hb hx0 fuel).2.1.get? i = mh.get? i) ∧
    (i < vh.length →
      (pivot_gaussH mh vh hA hb).2.2.get? i = vh.get? i ∧
        (lu_decomposition_doolittleH mh vh hA hb).2.2.get? i = vh.get? i ∧
        (jacobiH la mh vh hA hb hx0 fuel).2.2.get? i = vh.get? i ∧
        (gauss_seidelH la mh vh hA hb hx0 fuel).2.2.get? i = vh.get? i ∧
        (successive_over_relaxationH la mh vh w hA hb hx0 fuel).2.2.get? i = vh.get? i ∧
        (conjugate_gradientH la mh vh hA hb hx0 fuel).2.2.get? i = vh.get? i) := by
  constructor
  · intro hi
    refine ⟨?_, ?_, ?_, ?_, ?_, ?_⟩
    · simp only [pivot_gaussH, halloc]
      rw [hget_set_ne _ _ _ _ (by omega)]
      exact hget_append _ _ _ hi
    · simp only [lu_decomposition_doolittleH, halloc]
      rw [hget_append _ _ _
          (by simp only [List.length_append, List.length_cons, List.length_nil]; omega),
        hget_append _ _ _
          (by simp only [List.length_append, List.length_cons, List.length_nil]; omega)]
      exact hget_append _ _ _ hi
    · exact (iterSolveH_frame _ _ fuel mh vh hA hb hx0 i).1 hi
    · exact (iterSolveH_frame _ _ fuel mh vh hA hb hx0 i).1 hi
    · exact (iterSolveH_frame _ _ fuel mh vh hA hb hx0 i).1 hi
    · simp only [conjugate_gradientH, halloc]
      by_cases hc : check_symmetric_and_positive_definite_matrix la (mh.getD hA []) = false
      · rw [if_pos hc]
        exact hget_append _ _ _ hi
      · rw [if_neg hc]
        exact hget_append _ _ _ hi
  · intro hi
    refine ⟨?_, ?_, ?_, ?_, ?_, ?_⟩
    · simp only [pivot_gaussH, halloc]
      rw [hget_set_ne _ _ _ _ (by omega)]
      exact hget_append _ _ _ hi
    · simp only [lu_decomposition_doolittleH, halloc]
      rw [hget_append _ _ _
          (by simp only [List.length_append, List.length_cons, List.length_nil]; omega),
        hget_append _ _ _
          (by simp only [List.length_append, List.length_cons, List.length_nil]; omega)]
      exact hget_append _ _ _ hi
    · exact (iterSolveH_frame _ _ fuel mh vh hA hb hx0 i).2 hi
    · exact (iterSolveH_frame _ _ fuel mh vh hA hb hx0 i).2 hi
    · exact (iterSolveH_frame _ _ fuel mh vh hA hb hx0 i).2 hi
    · simp only [conjugate_gradientH, halloc]
      by_cases hc : check_symmetric_and_positive_definite_matrix la (mh.getD hA []) = false
      · rw [if_pos hc]
        exact hget_append _ _ _ hi
      · rw [if_neg hc]
        rw [hget_append _ _ _
          (by simp only [List.length_append, List.length_cons, List.length_nil]; omega)]
        exact hget_append _ _ _ hi

/-- Witness for C9 on a concrete heap: caller cells `mh[0]`, `vh[0]`,
`vh[1]` read the same after every solver call. -/
theorem claim_C9_no_caller_mutation_witness :
    ((pivot_gaussH [[[5]]] [[7], [8]] 0 0).2.1.get? 0 = ([[[5]]] : MHeap).get? 0 ∧
        (lu_decomposition_doolittleH [[[5]]] [[7], [8]] 0 0).2.1.get? 0 =
          ([[[5]]] : MHeap).get? 0 ∧
        (jacobiH ⟨fun _ => [0], fun m => m⟩ [[[5]]] [[7], [8]] 0 0 1 2).2.1.get? 0 =
          ([[[5]]] : MHeap).get? 0 ∧
        (gauss_seidelH ⟨fun _ => [0], fun m => m⟩ [[[5]]] [[7], [8]] 0 0 1 2).2.1.get? 0 =
          ([[[5]]] : MHeap).get? 0 ∧
        (successive_over_relaxationH ⟨fun _ => [0], fun m => m⟩ [[[5]]] [[7], [8]]
            (3 / 2) 0 0 1 2).2.1.get? 0 = ([[[5]]] : MHeap).get? 0 ∧
        (conjugate_gradientH ⟨fun _ => [0], fun m => m⟩ [[[5]]] [[7], [8]] 0 0 1 2).2.1.get? 0 =
          ([[[5]]] : MHeap).get? 0) ∧
      ((pivot_gaussH [[[5]]] [[7], [8]] 0 0).2.2.get? 1 = ([[7], [8]] : VHeap).get? 1 ∧
        (lu_decomposition_doolittleH [[[5]]] [[7], [8]] 0 0).2.2.get? 1 =
          ([[7], [8]] : VHeap).get? 1 ∧
        (jacobiH ⟨fun _ => [0], fun m => m⟩ [[[5]]] [[7], [8]] 0 0 1 2).2.2.get? 1 =
          ([[7], [8]] : VHeap).get? 1 ∧
        (gauss_seidelH ⟨fun _ => [0], fun m => m⟩ [[[5]]] [[7], [8]] 0 0 1 2).2.2.get? 1 =
          ([[7], [8]] : VHeap).get? 1 ∧
        (successive_over_relaxationH ⟨fun _ => [0], fun m => m⟩ [[[5]]] [[7], [8]]
            (3 / 2) 0 0 1 2).2.2.get? 1 = ([[7], [8]] : VHeap).get? 1 ∧
        (conjugate_gradientH ⟨fun _ => [0], fun m => m⟩ [[[5]]] [[7], [8]] 0 0 1 2).2.2.get? 1 =
          ([[7], [8]] : VHeap).get? 1) :=
  ⟨(claim_C9_no_caller_mutation ⟨fun _ => [0], fun m => m⟩ [[[5]]] [[7], [8]] 0 0 1
      (3 / 2) 2 0).1 (by decide),
    (claim_C9_no_caller_mutation ⟨fun _ => [0], fun m => m⟩ [[[5]]] [[7], [8]] 0 0 1
      (3 / 2) 2 1).2 (by decide)⟩

theorem iterLoop_count (sweep : Vec → Vec) :
    ∀ fuel x cnt v c, iterLoop sweep fuel x cnt = .ok v c →
      ∃ k, iterSweeps sweep fuel x = some k ∧ c = cnt + k ∧ 1 ≤ k := by
  intro fuel
  induction fuel with
  | zero => intro x cnt v c h; simp [iterLoop] at h
  | succ f ih =>
    intro x cnt v c h
    rw [iterLoop] at h
    rw [iterSweeps]
    split at h
    · next hs =>
      rcases h with ⟨⟩
      exact ⟨1, by simp [hs], rfl, le_refl 1⟩
    · next hs =>
      obtain ⟨k, hk, hc, h1⟩ := ih (sweep x) (cnt + 1) v c h
      refine ⟨k + 1, ?_, by omega, by omega⟩
      simp [hs, hk]

theorem cgLoop_count (A : Mat) :
    ∀ fuel x r p cnt v c, cgLoop A fuel x r p cnt = .ok v c →
      ∃ k, cgSweeps A fuel x r p = some k ∧ c = cnt + k ∧ 1 ≤ k := by
  intro fuel
  induction fuel with
  | zero => intro x r p cnt v c h; simp [cgLoop] at h
  | succ f ih =>
    intro x r p cnt v c h
    rw [cgLoop] at h
    rw [cgSweeps]
    split at h
    · next hs =>
      rcases h with ⟨⟩
      exact ⟨1, by simp only [hs, if_pos], rfl, le_refl 1⟩
    · next hs =>
      obtain ⟨k, hk, hc, h1⟩ := ih _ _ _ (cnt + 1) v c h
      refine ⟨k + 1, ?_, by omega, by omega⟩
      simp [hs, hk]

/-- C10: on success, `conjugate_gradient` returns one more than the number
of update sweeps it performed (its counter starts at `1` and the loop body
runs at least once, so the count is at least `2`), while `jacobi`,
`gauss_seidel` and `successive_over_relaxation` return exactly the number
of sweeps performed (their counters start at `0`). -/
theorem claim_C10_iteration_counters (la : LinAlg) (A : Mat) (b x0 : Vec) (w : ℚ)
    (fuel : ℕ) (v : Vec) (c : ℕ) :
    (jacobi la A b x0 fuel = .ok v c → iterSweeps (sweepJacobi A b) fuel x0 = some c) ∧
    (gauss_seidel la A b x0 fuel = .ok v c →
      iterSweeps (sweepGaussSeidel A b) fuel x0 = some c) ∧
    (successive_over_relaxation la A b w x0 fuel = .ok v c →
      iterSweeps (sweepSOR A b w) fuel x0 = some c) ∧
    (conjugate_gradient la A b x0 fuel = .ok v c →
      2 ≤ c ∧
        cgSweeps A fuel x0 (vSub b (matVec A x0)) (vSub b (matVec A x0)) = some (c - 1)) := by
  refine ⟨fun h => ?_, fun h => ?_, fun h => ?_, fun h => ?_⟩
  · rw [jacobi] at h
    split at h
    · exact absurd h (by simp)
    · obtain ⟨k, hk, hc, h1⟩ := iterLoop_count _ fuel x0 0 v c h
      simpa [hc] using hk
  · rw [gauss_seidel] at h
    split at h
    · exact absurd h (by simp)
    · obtain ⟨k, hk, hc, h1⟩ := iterLoop_count _ fuel x0 0 v c h
      simpa [hc] using hk
  · rw [successive_over_relaxation] at h
    split at h
    · exact absurd h (by simp)
    · obtain ⟨k, hk, hc, h1⟩ := iterLoop_count _ fuel x0 0 v c h
      simpa [hc] using hk
  · rw [conjugate_gradient] at h
    split at h
    · exact absurd h (by simp)
    · obtain ⟨k, hk, hc, h1⟩ := cgLoop_count A fuel _ _ _ 1 v c h
      constructor
      · omega
      · have : c - 1 = k := by omega
        rw [this]
        exact hk

/-- Witness for C10 at concrete runs: each stationary solver stops after
one sweep and reports `1`; CG (started within tolerance of the solution)
stops after one sweep and reports `2`. -/
theorem claim_C10_iteration_counters_witness :
    iterSweeps (sweepJacobi [[2]] [2]) 3 [1] = some 1 ∧
      iterSweeps (sweepGaussSeidel [[2]] [2]) 3 [1] = some 1 ∧
      iterSweeps (sweepSOR [[2]] [2] 1) 3 [1] = some 1 ∧
      (2 ≤ 2 ∧
        cgSweeps [[1]] 3 [1999999 / 2000000]
          (vSub [1] (matVec [[1]] [1999999 / 2000000]))
          (vSub [1] (matVec [[1]] [1999999 / 2000000])) = some (2 - 1)) := by
  have h0 := claim_C10_iteration_counters ⟨fun _ => [0], fun m => m⟩ [[2]] [2] [1] 1 3 [1] 1
  have h1 := claim_C10_iteration_counters ⟨fun _ => [0], fun m => m⟩ [[1]] [1]
    [1999999 / 2000000] 1 3 [1] 2
  exact ⟨h0.1 (by with_unfolding_all decide), h0.2.1 (by with_unfolding_all decide),
    h0.2.2.1 (by with_unfolding_all decide), h1.2.2.2 (by with_unfolding_all decide)⟩

end Lab2
